import Mathlib

/-!
Verification of the storage layer of tiqwab/xv6-rust.

The definitions below are shallow embeddings of the Rust sources:
`src/log.rs` (write-ahead log), `src/buf.rs` (buffer cache) and
`src/fs.rs` (inodes, block allocator, directories).  Machine integers
(`u32`/`usize`) are modelled as `Nat`, with an explicit `% 2^32` wherever
the Rust code relies on wrapping behaviour.  A Rust `panic!` is modelled
by an `Option`/dedicated result constructor returning a distinguished
failure value.
-/

namespace XvFs

/-! ## Constants (`src/constants.rs`) -/

def BLK_SIZE : Nat := 512
def MAX_OP_BLOCKS : Nat := 10
def LOG_SIZE : Nat := MAX_OP_BLOCKS * 3
def NDIRECT : Nat := 12
def NINDIRECT : Nat := BLK_SIZE / 4
def MAX_FILE : Nat := NDIRECT + NINDIRECT
def NBUF : Nat := MAX_OP_BLOCKS * 3
def BPB : Nat := BLK_SIZE * 8
def DIR_SIZ : Nat := 12

/-- Buffer flag: data has been read from disk (`BUF_FLAGS_VALID`). -/
def BUF_FLAGS_VALID : Nat := 2

/-- Buffer flag: data needs to be written to disk (`BUF_FLAGS_DIRTY`). -/
def BUF_FLAGS_DIRTY : Nat := 4

/-- Wrap-around bound of the Rust `u32` arithmetic. -/
def U32_MOD : Nat := 2 ^ 32

/-! ## Log state (`src/log.rs`)

`LogSt` mirrors the fields of `Log`/`LogHeader` that `begin_op` and
`log_write` read or write: `n` and `block` are the in-memory log header
(`log.lh.n`, `log.lh.block`, an array of `LOG_SIZE` entries of which the
first `n` are meaningful), `outstanding` counts executing FS system
calls, and `size` is `log.size` (the `nlog` field of the superblock). -/

structure LogSt where
  n : Nat
  block : List Nat
  outstanding : Nat
  size : Nat
  deriving Repr, DecidableEq

/-- One iteration of the `loop` in `begin_op` (`log.rs` lines 125-137).
If `log.lh.n + (log.outstanding + 1) * MAX_OP_BLOCKS > LOG_SIZE` the
iteration `continue`s without touching the state; otherwise it executes
`log.outstanding += 1`.  The `Bool` component records whether this
iteration exits the loop and returns to the caller; the loop body in the
source contains neither `break` nor `return`, so it is `false` on every
path. -/
def beginOpBody (s : LogSt) : LogSt × Bool :=
  if s.n + (s.outstanding + 1) * MAX_OP_BLOCKS > LOG_SIZE then
    (s, false)
  else
    ({ s with outstanding := s.outstanding + 1 }, false)

/-- Run the `begin_op` loop for at most `fuel` iterations.  `some s`
means the loop exited and `begin_op` returned to its caller with final
log state `s`; `none` means the loop was still running when the fuel ran
out. -/
def beginOpRun : Nat → LogSt → Option LogSt
  | 0, _ => none
  | fuel + 1, s =>
    let r := beginOpBody s
    if r.2 then some r.1 else beginOpRun fuel r.1

/-- `log_write` (`log.rs` lines 263-295) without the final `make_dirty`
on the buffer (modelled with the cache, below).  `none` models the two
`panic!` calls: a transaction larger than the log, and a `log_write`
outside of `begin_op`/`end_op`.  Otherwise the block number is looked up
among the first `n` header entries; if absent it is appended. -/
def log_write (s : LogSt) (blockno : Nat) : Option LogSt :=
  if s.n ≥ LOG_SIZE ∨ s.n ≥ s.size - 1 then
    none
  else if s.outstanding < 1 then
    none
  else if blockno ∈ s.block.take s.n then
    some s
  else
    some { s with block := s.block.set s.n blockno, n := s.n + 1 }

lemma take_succ_set {α : Type} (l : List α) (n : Nat) (b : α) (h : n < l.length) :
    (l.set n b).take (n + 1) = l.take n ++ [b] := by
  induction l generalizing n with
  | nil => simp at h
  | cons a l ih =>
    cases n with
    | zero => simp
    | succ n =>
      simp only [List.set, List.take, List.cons_append, List.cons.injEq, true_and]
      exact ih n (by simpa using h)

lemma beginOpBody_snd (s : LogSt) : (beginOpBody s).2 = false := by
  unfold beginOpBody
  split <;> rfl

/-- C2: the `loop` in `begin_op` contains no `break` or `return`, so
`begin_op` never returns to its caller no matter how many iterations
run — even from a state where the admission-control inequality holds —
and, far from incrementing the outstanding count by exactly one, two
iterations from the initial state increment it twice. -/
theorem begin_op_never_returns :
    (∀ fuel s, beginOpRun fuel s = none)
    ∧ (beginOpBody (beginOpBody ⟨0, [], 0, LOG_SIZE⟩).1).1.outstanding = 2 := by
  constructor
  · intro fuel
    induction fuel with
    | zero => intro s; rfl
    | succ fuel ih =>
      intro s
      simp only [beginOpRun, beginOpBody_snd, Bool.false_eq_true, if_false]
      exact ih _
  · decide

/-- C10: `log_write` is fatal outside a `begin_op`/`end_op` bracket
(`outstanding = 0` forces a panic on every path), it panics rather than
letting the header count pass the log capacity (`some` results always
satisfy `n ≤ LOG_SIZE`), and an already-recorded block number is not
re-added, so distinctness of the first `n` header entries is
preserved. -/
theorem log_write_safety (s : LogSt) (b : Nat) (hlen : s.block.length = LOG_SIZE) :
    (s.outstanding = 0 → log_write s b = none)
    ∧ (∀ s', log_write s b = some s' →
        s'.n ≤ LOG_SIZE ∧ ((s.block.take s.n).Nodup → (s'.block.take s'.n).Nodup)) := by
  constructor
  · intro hout
    unfold log_write
    split
    · rfl
    · rw [if_pos (by omega)]
  · intro s' hs'
    unfold log_write at hs'
    split at hs'
    · exact absurd hs' (by simp)
    · split at hs'
      · exact absurd hs' (by simp)
      · rename_i hcap hout
        split at hs'
        · rename_i hmem
          obtain rfl : s = s' := by injection hs'
          exact ⟨by omega, fun h => h⟩
        · rename_i hmem
          obtain rfl : { s with block := s.block.set s.n b, n := s.n + 1 } = s' := by
            injection hs'
          refine ⟨by simp; omega, fun hnd => ?_⟩
          have hn : s.n < s.block.length := by omega
          simp only [take_succ_set s.block s.n b hn]
          rw [List.nodup_append]
          refine ⟨hnd, List.nodup_singleton b, ?_⟩
          intro x hx hxb
          simp only [List.mem_singleton] at hxb
          subst hxb
          exact hmem hx

def c10s : LogSt := ⟨1, 5 :: List.replicate 29 0, 1, 30⟩

/-- Witness for C10 at a concrete log state with one recorded block. -/
theorem log_write_safety_witness :
    c10s.block.length = LOG_SIZE
    ∧ ((c10s.outstanding = 0 → log_write c10s 7 = none)
       ∧ (∀ s', log_write c10s 7 = some s' →
           s'.n ≤ LOG_SIZE ∧ ((c10s.block.take c10s.n).Nodup → (s'.block.take s'.n).Nodup))) :=
  ⟨by decide, log_write_safety c10s 7 (by decide)⟩

/-! ## Buffer cache (`src/buf.rs`)

`Buf` mirrors `struct Buf` (the intrusive `qnext` pointer of the disk
queue is outside this model); the cache itself is the fixed slot array
`entries: [Option<Buf>; NBUF]`, modelled as a list of optional
buffers. -/

structure Buf where
  flags : Nat
  dev : Nat
  blockno : Nat
  refcnt : Nat
  data : List Nat
  deriving Repr, DecidableEq

/-- `Buf::new()` followed by the field assignments of the recycle branch
of `BufCache::get` (`buf.rs` lines 136-140): zeroed data, `flags = 0`,
`refcnt = 1`. -/
def Buf.fresh (dev blockno : Nat) : Buf :=
  { flags := 0, dev := dev, blockno := blockno, refcnt := 1
    data := List.replicate BLK_SIZE 0 }

/-- The match test `buf.dev == dev && buf.blockno == blockno` applied to
a slot. -/
def bufMatch (dev blockno : Nat) (e : Option Buf) : Bool :=
  match e with
  | some b => b.dev == dev && b.blockno == blockno
  | none => false

/-- The early-return path of the scan in `BufCache::get` (`buf.rs` lines
114-126): the first slot whose buffer matches `(dev, blockno)` gets its
reference count incremented and the scan returns; `none` means the scan
ran to the end without a match. -/
def getScan : List (Option Buf) → Nat → Nat → Option (List (Option Buf))
  | [], _, _ => none
  | some b :: rest, dev, blockno =>
    if b.dev == dev && b.blockno == blockno then
      some (some { b with refcnt := b.refcnt + 1 } :: rest)
    else
      (getScan rest dev blockno).map (some b :: ·)
  | none :: rest, dev, blockno => (getScan rest dev blockno).map (none :: ·)

/-- The recycle path of `BufCache::get`: insert the fresh buffer into
the slot `empty_entry` refers to.  The scan overwrites `empty_entry`
each time it passes a `None` slot, so after a full scan with no match it
refers to the last empty slot; `none` models the
`panic!("get: no buffers")` when no slot is empty. -/
def insertLastStep (e : Option Buf) (rest : List (Option Buf)) (b : Buf) :
    Option (List (Option Buf)) → Option (List (Option Buf))
  | some rest' => some (e :: rest')
  | none =>
    match e with
    | none => some (some b :: rest)
    | some _ => none

def insertLast : List (Option Buf) → Buf → Option (List (Option Buf))
  | [], _ => none
  | e :: rest, b => insertLastStep e rest b (insertLast rest b)

/-- `BufCache::get` (`buf.rs` lines 110-150). -/
def BufCache.get (c : List (Option Buf)) (dev blockno : Nat) : Option (List (Option Buf)) :=
  match getScan c dev blockno with
  | some c' => some c'
  | none => insertLast c (Buf.fresh dev blockno)

/-- `BufCache::release` (`buf.rs` lines 152-172): decrement the refcount
of the first slot matching `(dev, blockno)`; if it reaches zero the slot
is set to `None` (the entry is dropped), with no look at the dirty flag.
`none` models `panic!("release: illegal dev or blockno")`. -/
def BufCache.release : List (Option Buf) → Nat → Nat → Option (List (Option Buf))
  | [], _, _ => none
  | some b :: rest, dev, blockno =>
    if b.dev == dev && b.blockno == blockno then
      if b.refcnt - 1 == 0 then some (none :: rest)
      else some (some { b with refcnt := b.refcnt - 1 } :: rest)
    else
      (BufCache.release rest dev blockno).map (some b :: ·)
  | none :: rest, dev, blockno => (BufCache.release rest dev blockno).map (none :: ·)

/-- Two occupied slots carry the same identity `(dev, blockno)`. -/
def entClash : Option Buf → Option Buf → Bool
  | some b1, some b2 => b1.dev == b2.dev && b1.blockno == b2.blockno
  | _, _ => false

/-- The cache invariant: no two distinct slots hold buffers with the
same `(dev, blockno)` identity. -/
def UniqueIdent (c : List (Option Buf)) : Prop :=
  c.Pairwise (fun e1 e2 => entClash e1 e2 = false)

instance (c : List (Option Buf)) : Decidable (UniqueIdent c) :=
  inferInstanceAs (Decidable (c.Pairwise fun e1 e2 => entClash e1 e2 = false))

/-! ### Lemmas about the buffer cache -/

lemma natBeqComm (a b : Nat) : (a == b) = (b == a) := by
  by_cases h : a = b
  · subst h; rfl
  · rw [beq_eq_false_iff_ne.mpr h, beq_eq_false_iff_ne.mpr (Ne.symm h)]

lemma entClash_none_left (e : Option Buf) : entClash none e = false := by
  cases e <;> rfl

lemma entClash_symm (e1 e2 : Option Buf) : entClash e1 e2 = entClash e2 e1 := by
  cases e1 with
  | none => cases e2 <;> rfl
  | some b1 =>
    cases e2 with
    | none => rfl
    | some b2 =>
      show (b1.dev == b2.dev && b1.blockno == b2.blockno)
        = (b2.dev == b1.dev && b2.blockno == b1.blockno)
      rw [natBeqComm b1.dev b2.dev, natBeqComm b1.blockno b2.blockno]

lemma entClash_ident_left {b' b : Buf} (hdev : b'.dev = b.dev) (hbn : b'.blockno = b.blockno)
    (e : Option Buf) : entClash (some b') e = entClash (some b) e := by
  cases e <;> simp [entClash, hdev, hbn]

lemma entClash_refcnt (b : Buf) (r : Nat) (e : Option Buf) :
    entClash (some { b with refcnt := r }) e = entClash (some b) e := by
  cases e <;> rfl

/-- Which slot identities occur in a cache can only shrink under
`get`-scan bumps and `release`: every slot of the new cache is empty or
carries the identity of some occupied slot of the old cache. -/
def IdentFrom (c : List (Option Buf)) (e' : Option Buf) : Prop :=
  e' = none ∨ ∃ b' b, e' = some b' ∧ some b ∈ c ∧ b'.dev = b.dev ∧ b'.blockno = b.blockno

lemma identFrom_of_mem {c : List (Option Buf)} {e : Option Buf} (h : e ∈ c) : IdentFrom c e := by
  cases e with
  | none => exact Or.inl rfl
  | some b => exact Or.inr ⟨b, b, rfl, h, rfl, rfl⟩

lemma identFrom_cons {c : List (Option Buf)} {e' x : Option Buf} (h : IdentFrom c e') :
    IdentFrom (x :: c) e' := by
  rcases h with h | ⟨b', b, h1, h2, h3, h4⟩
  · exact Or.inl h
  · exact Or.inr ⟨b', b, h1, List.mem_cons_of_mem x h2, h3, h4⟩

lemma release_identFrom (dev blockno : Nat) :
    ∀ (c c' : List (Option Buf)), BufCache.release c dev blockno = some c' →
      ∀ e' ∈ c', IdentFrom c e' := by
  intro c
  induction c with
  | nil => intro c' h; exact absurd h (by simp [BufCache.release])
  | cons x rest ih =>
    intro c' h e' he'
    match x with
    | some b =>
      rw [BufCache.release] at h
      split at h
      · split at h
        · obtain rfl : none :: rest = c' := by injection h
          rcases List.mem_cons.mp he' with rfl | hm
          · exact Or.inl rfl
          · exact identFrom_cons (identFrom_of_mem hm)
        · obtain rfl : some { b with refcnt := b.refcnt - 1 } :: rest = c' := by injection h
          rcases List.mem_cons.mp he' with rfl | hm
          · exact Or.inr ⟨_, b, rfl, List.mem_cons_self _ _, rfl, rfl⟩
          · exact identFrom_cons (identFrom_of_mem hm)
      · obtain ⟨rest', hrest, rfl⟩ := Option.map_eq_some'.mp h
        rcases List.mem_cons.mp he' with rfl | hm
        · exact Or.inr ⟨b, b, rfl, List.mem_cons_self _ _, rfl, rfl⟩
        · exact identFrom_cons (ih rest' hrest e' hm)
    | none =>
      rw [BufCache.release] at h
      obtain ⟨rest', hrest, rfl⟩ := Option.map_eq_some'.mp h
      rcases List.mem_cons.mp he' with rfl | hm
      · exact Or.inl rfl
      · exact identFrom_cons (ih rest' hrest e' hm)

lemma getScan_identFrom (dev blockno : Nat) :
    ∀ (c c' : List (Option Buf)), getScan c dev blockno = some c' →
      ∀ e' ∈ c', IdentFrom c e' := by
  intro c
  induction c with
  | nil => intro c' h; exact absurd h (by simp [getScan])
  | cons x rest ih =>
    intro c' h e' he'
    match x with
    | some b =>
      rw [getScan] at h
      split at h
      · obtain rfl : some { b with refcnt := b.refcnt + 1 } :: rest = c' := by injection h
        rcases List.mem_cons.mp he' with rfl | hm
        · exact Or.inr ⟨_, b, rfl, List.mem_cons_self _ _, rfl, rfl⟩
        · exact identFrom_cons (identFrom_of_mem hm)
      · obtain ⟨rest', hrest, rfl⟩ := Option.map_eq_some'.mp h
        rcases List.mem_cons.mp he' with rfl | hm
        · exact Or.inr ⟨b, b, rfl, List.mem_cons_self _ _, rfl, rfl⟩
        · exact identFrom_cons (ih rest' hrest e' hm)
    | none =>
      rw [getScan] at h
      obtain ⟨rest', hrest, rfl⟩ := Option.map_eq_some'.mp h
      rcases List.mem_cons.mp he' with rfl | hm
      · exact Or.inl rfl
      · exact identFrom_cons (ih rest' hrest e' hm)

lemma head_clash_free_of_identFrom {b : Buf} {rest rest' : List (Option Buf)}
    (hhead : ∀ e ∈ rest, entClash (some b) e = false)
    (hfrom : ∀ e' ∈ rest', IdentFrom rest e') :
    ∀ e' ∈ rest', entClash (some b) e' = false := by
  intro e' he'
  rcases hfrom e' he' with rfl | ⟨b', b0, rfl, hb0, hdev, hbn⟩
  · rfl
  · rw [entClash_symm, entClash_ident_left hdev hbn, entClash_symm]
    exact hhead (some b0) hb0

lemma release_uniqueIdent (dev blockno : Nat) :
    ∀ (c c' : List (Option Buf)), UniqueIdent c →
      BufCache.release c dev blockno = some c' → UniqueIdent c' := by
  intro c
  induction c with
  | nil => intro c' _ h; exact absurd h (by simp [BufCache.release])
  | cons x rest ih =>
    intro c' hu h
    rw [UniqueIdent, List.pairwise_cons] at hu
    obtain ⟨hhead, htail⟩ := hu
    match x with
    | some b =>
      rw [BufCache.release] at h
      split at h
      · split at h
        · obtain rfl : none :: rest = c' := by injection h
          rw [UniqueIdent, List.pairwise_cons]
          exact ⟨fun e _ => entClash_none_left e, htail⟩
        · obtain rfl : some { b with refcnt := b.refcnt - 1 } :: rest = c' := by injection h
          rw [UniqueIdent, List.pairwise_cons]
          refine ⟨fun e he => ?_, htail⟩
          rw [entClash_refcnt b (b.refcnt - 1) e]
          exact hhead e he
      · obtain ⟨rest', hrest, rfl⟩ := Option.map_eq_some'.mp h
        rw [UniqueIdent, List.pairwise_cons]
        exact ⟨head_clash_free_of_identFrom hhead
          (release_identFrom dev blockno rest rest' hrest), ih rest' htail hrest⟩
    | none =>
      rw [BufCache.release] at h
      obtain ⟨rest', hrest, rfl⟩ := Option.map_eq_some'.mp h
      rw [UniqueIdent, List.pairwise_cons]
      exact ⟨fun e _ => entClash_none_left e, ih rest' htail hrest⟩

lemma getScan_uniqueIdent (dev blockno : Nat) :
    ∀ (c c' : List (Option Buf)), UniqueIdent c →
      getScan c dev blockno = some c' → UniqueIdent c' := by
  intro c
  induction c with
  | nil => intro c' _ h; exact absurd h (by simp [getScan])
  | cons x rest ih =>
    intro c' hu h
    rw [UniqueIdent, List.pairwise_cons] at hu
    obtain ⟨hhead, htail⟩ := hu
    match x with
    | some b =>
      rw [getScan] at h
      split at h
      · obtain rfl : some { b with refcnt := b.refcnt + 1 } :: rest = c' := by injection h
        rw [UniqueIdent, List.pairwise_cons]
        refine ⟨fun e he => ?_, htail⟩
        rw [entClash_refcnt b (b.refcnt + 1) e]
        exact hhead e he
      · obtain ⟨rest', hrest, rfl⟩ := Option.map_eq_some'.mp h
        rw [UniqueIdent, List.pairwise_cons]
        exact ⟨head_clash_free_of_identFrom hhead
          (getScan_identFrom dev blockno rest rest' hrest), ih rest' htail hrest⟩
    | none =>
      rw [getScan] at h
      obtain ⟨rest', hrest, rfl⟩ := Option.map_eq_some'.mp h
      rw [UniqueIdent, List.pairwise_cons]
      exact ⟨fun e _ => entClash_none_left e, ih rest' htail hrest⟩

lemma insertLast_shape :
    ∀ (c : List (Option Buf)) (b : Buf) (c' : List (Option Buf)),
      insertLast c b = some c' →
      ∃ pre suf, c = pre ++ none :: suf ∧ c' = pre ++ some b :: suf := by
  intro c
  induction c with
  | nil => intro b c' h; exact absurd h (by simp [insertLast])
  | cons e rest ih =>
    intro b c' h
    rw [insertLast] at h
    cases hrec : insertLast rest b with
    | some rest' =>
      rw [hrec] at h
      obtain rfl : e :: rest' = c' := by
        have hstep : insertLastStep e rest b (some rest') = some (e :: rest') := rfl
        rw [hstep] at h
        injection h
      obtain ⟨pre, suf, h1, h2⟩ := ih b rest' hrec
      exact ⟨e :: pre, suf, by simp [h1], by simp [h2]⟩
    | none =>
      rw [hrec] at h
      match e with
      | none =>
        obtain rfl : some b :: rest = c' := by
          have hstep : insertLastStep none rest b none = some (some b :: rest) := rfl
          rw [hstep] at h
          injection h
        exact ⟨[], rest, rfl, rfl⟩
      | some b0 =>
        have hstep : insertLastStep (some b0) rest b none = none := rfl
        rw [hstep] at h
        exact absurd h (by simp)

lemma getScan_none_nomatch (dev blockno : Nat) :
    ∀ (c : List (Option Buf)), getScan c dev blockno = none →
      ∀ e ∈ c, bufMatch dev blockno e = false := by
  intro c
  induction c with
  | nil => intro _ e he; simp at he
  | cons x rest ih =>
    intro h e he
    match x with
    | some b =>
      rw [getScan] at h
      split at h
      · exact absurd h (by simp)
      · rename_i hnm
        rcases List.mem_cons.mp he with rfl | hm
        · simpa [bufMatch] using hnm
        · exact ih (by simpa [Option.map_eq_none'] using h) e hm
    | none =>
      rw [getScan] at h
      rcases List.mem_cons.mp he with rfl | hm
      · rfl
      · exact ih (by simpa [Option.map_eq_none'] using h) e hm

lemma entClash_fresh (dev blockno : Nat) (e : Option Buf) :
    entClash (some (Buf.fresh dev blockno)) e = bufMatch dev blockno e := by
  cases e with
  | none => rfl
  | some b =>
    show ((Buf.fresh dev blockno).dev == b.dev && (Buf.fresh dev blockno).blockno == b.blockno)
      = (b.dev == dev && b.blockno == blockno)
    rw [natBeqComm b.dev dev, natBeqComm b.blockno blockno]
    rfl

lemma get_uniqueIdent (dev blockno : Nat) (c c' : List (Option Buf)) (hu : UniqueIdent c)
    (h : BufCache.get c dev blockno = some c') : UniqueIdent c' := by
  rw [BufCache.get] at h
  cases hscan : getScan c dev blockno with
  | some c0 =>
    rw [hscan] at h
    obtain rfl : c0 = c' := by injection h
    exact getScan_uniqueIdent dev blockno c _ hu hscan
  | none =>
    rw [hscan] at h
    obtain ⟨pre, suf, rfl, rfl⟩ := insertLast_shape c (Buf.fresh dev blockno) c' h
    have hnm := getScan_none_nomatch dev blockno _ hscan
    have hsym : ∀ {x y : Option Buf}, entClash x y = false → entClash y x = false := by
      intro x y hxy
      rw [entClash_symm]
      exact hxy
    rw [UniqueIdent, List.pairwise_middle fun hxy => hsym hxy] at hu ⊢
    rw [List.pairwise_cons] at hu ⊢
    refine ⟨fun e he => ?_, hu.2⟩
    rw [entClash_fresh]
    apply hnm
    rcases List.mem_append.mp he with h1 | h1
    · exact List.mem_append.mpr (Or.inl h1)
    · exact List.mem_append.mpr (Or.inr (List.mem_cons_of_mem _ h1))

lemma getScan_shape (dev blockno : Nat) :
    ∀ (c c' : List (Option Buf)), getScan c dev blockno = some c' →
      ∃ pre b suf, c = pre ++ some b :: suf
        ∧ (b.dev == dev && b.blockno == blockno) = true
        ∧ c' = pre ++ some { b with refcnt := b.refcnt + 1 } :: suf := by
  intro c
  induction c with
  | nil => intro c' h; exact absurd h (by simp [getScan])
  | cons x rest ih =>
    intro c' h
    match x with
    | some b =>
      rw [getScan] at h
      split at h
      · rename_i hm
        obtain rfl : some { b with refcnt := b.refcnt + 1 } :: rest = c' := by injection h
        exact ⟨[], b, rest, rfl, hm, rfl⟩
      · obtain ⟨rest', hrest, rfl⟩ := Option.map_eq_some'.mp h
        obtain ⟨pre, b0, suf, h1, h2, h3⟩ := ih rest' hrest
        exact ⟨some b :: pre, b0, suf, by simp [h1], h2, by simp [h3]⟩
    | none =>
      rw [getScan] at h
      obtain ⟨rest', hrest, rfl⟩ := Option.map_eq_some'.mp h
      obtain ⟨pre, b0, suf, h1, h2, h3⟩ := ih rest' hrest
      exact ⟨none :: pre, b0, suf, by simp [h1], h2, by simp [h3]⟩

lemma getScan_some_of_resident (dev blockno : Nat) :
    ∀ (c : List (Option Buf)) (b0 : Buf), some b0 ∈ c → b0.dev = dev → b0.blockno = blockno →
      ∃ c', getScan c dev blockno = some c' := by
  intro c
  induction c with
  | nil => intro b0 h; simp at h
  | cons x rest ih =>
    intro b0 hmem hdev hbn
    match x with
    | some b =>
      rw [getScan]
      by_cases hm : (b.dev == dev && b.blockno == blockno) = true
      · rw [if_pos hm]
        exact ⟨_, rfl⟩
      · rw [if_neg hm]
        rcases List.mem_cons.mp hmem with he | hr
        · obtain rfl : b0 = b := by injection he
          exact absurd (by simp [hdev, hbn]) hm
        · obtain ⟨c', hc'⟩ := ih b0 hr hdev hbn
          exact ⟨_, by rw [hc']; rfl⟩
    | none =>
      rw [getScan]
      rcases List.mem_cons.mp hmem with he | hr
      · exact absurd he (by simp)
      · obtain ⟨c', hc'⟩ := ih b0 hr hdev hbn
        exact ⟨_, by rw [hc']; rfl⟩

lemma get_of_scan (dev blockno : Nat) (c c' : List (Option Buf))
    (h : getScan c dev blockno = some c') : BufCache.get c dev blockno = some c' := by
  unfold BufCache.get
  rw [h]

/-- C8: provided no two distinct cache slots hold the same
`(dev, blockno)` identity, both `BufCache::get` and `BufCache::release`
preserve that uniqueness, and `get` on an already-resident key returns
the cache with only the resident slot's reference count incremented —
the slot list keeps its exact shape, so no second slot is claimed for
the key. -/
theorem bufcache_identity_unique (c : List (Option Buf)) (dev blockno : Nat)
    (hu : UniqueIdent c) :
    (∀ c', BufCache.get c dev blockno = some c' → UniqueIdent c')
    ∧ (∀ c', BufCache.release c dev blockno = some c' → UniqueIdent c')
    ∧ (∀ b0, some b0 ∈ c → b0.dev = dev → b0.blockno = blockno →
        ∃ pre b suf, c = pre ++ some b :: suf
          ∧ BufCache.get c dev blockno
              = some (pre ++ some { b with refcnt := b.refcnt + 1 } :: suf)) := by
  refine ⟨fun c' h => get_uniqueIdent dev blockno c c' hu h,
          fun c' h => release_uniqueIdent dev blockno c c' hu h, ?_⟩
  intro b0 hmem hdev hbn
  obtain ⟨c', hscan⟩ := getScan_some_of_resident dev blockno c b0 hmem hdev hbn
  obtain ⟨pre, b, suf, h1, _h2, h3⟩ := getScan_shape dev blockno c c' hscan
  refine ⟨pre, b, suf, h1, ?_⟩
  rw [get_of_scan dev blockno c c' hscan, h3]

def c8cache : List (Option Buf) :=
  [some { flags := BUF_FLAGS_VALID, dev := 1, blockno := 7, refcnt := 1
          data := List.replicate BLK_SIZE 0 }, none]

/-- Witness for C8 at a concrete two-slot cache holding block (1, 7). -/
theorem bufcache_identity_unique_witness :
    UniqueIdent c8cache
    ∧ ((∀ c', BufCache.get c8cache 1 7 = some c' → UniqueIdent c')
       ∧ (∀ c', BufCache.release c8cache 1 7 = some c' → UniqueIdent c')
       ∧ (∀ b0, some b0 ∈ c8cache → b0.dev = 1 → b0.blockno = 7 →
           ∃ pre b suf, c8cache = pre ++ some b :: suf
             ∧ BufCache.get c8cache 1 7
                 = some (pre ++ some { b with refcnt := b.refcnt + 1 } :: suf))) :=
  ⟨by decide, bufcache_identity_unique c8cache 1 7 (by decide)⟩

def c3buf : Buf :=
  { flags := BUF_FLAGS_DIRTY, dev := 1, blockno := 2, refcnt := 1
    data := List.replicate BLK_SIZE 0 }

/-- C3: the claim fails on the code.  `BufCache::release` drops a slot
as soon as its reference count reaches zero without consulting the
dirty flag: releasing the sole reference to a buffer whose
`BUF_FLAGS_DIRTY` bit is set (a buffer pinned by `log_write` for an
uncommitted transaction) removes the entry from the cache.  This
contradicts the eviction policy stated in the code's own comment in
`BufCache::get` (`buf.rs` lines 128-130). -/
theorem release_evicts_dirty_buffer :
    c3buf.flags &&& BUF_FLAGS_DIRTY ≠ 0
    ∧ c3buf.refcnt = 1
    ∧ BufCache.release [some c3buf] 1 2 = some [none] := by
  refine ⟨by decide, rfl, rfl⟩

/-! ## Inode layer (`src/fs.rs`) -/

inductive InodeType
  | Empty
  | Dir
  | File
  | Dev
  deriving Repr, DecidableEq

/-- State observed and mutated by `iput` (`fs.rs` lines 376-393).
`refs` is the strong count of the `Arc<RwLock<Inode>>` (the caller's
reference included); `cached` says whether the `(dev, inum)` entry is
present in `INODE_CACHE`; `diskTyp`/`diskSize` are the fields of the
on-disk `DInode` record that `iupdate` flushes. -/
structure IputSt where
  refs : Nat
  valid : Bool
  typ : InodeType
  nlink : Nat
  size : Nat
  cached : Bool
  diskTyp : InodeType
  diskSize : Nat
  deriving Repr, DecidableEq

/-- `iput` (`fs.rs` lines 376-393) followed by the drop of the caller's
`Arc` at the end of the call (the function consumes
`ip: Arc<RwLock<Inode>>`, so the strong count decreases by one when it
returns).  The body tests only `inode.valid && inode.nlink == 0` — it
never inspects the reference count; if the test passes it truncates
(`itrunc`: size to 0, flushed), marks the record `Empty` (`iupdate`),
clears `valid` and removes the cache entry. -/
def iput (s : IputSt) : IputSt :=
  let s1 :=
    if s.valid = true ∧ s.nlink = 0 then
      { s with size := 0, diskSize := 0, typ := InodeType.Empty
               diskTyp := InodeType.Empty, valid := false, cached := false }
    else s
  { s1 with refs := s1.refs - 1 }

def c4inode : IputSt :=
  { refs := 2, valid := true, typ := InodeType.File, nlink := 0, size := 100
    cached := true, diskTyp := InodeType.File, diskSize := 100 }

/-- C4: the claim fails on the code.  `iput` never checks that the
dropped reference is the last one: with two live references
(`refs = 2`) and `nlink = 0`, a single `iput` still truncates the
inode, marks the on-disk record `Empty` and removes the cache entry,
leaving another live reference behind (`refs = 1`).  This contradicts
`iput`'s own doc comment ("If that was the last reference ...",
`fs.rs` lines 369-375). -/
theorem iput_ignores_refcount :
    (iput c4inode).refs = 1
    ∧ (iput c4inode).cached = false
    ∧ (iput c4inode).diskTyp = InodeType.Empty
    ∧ (iput c4inode).diskSize = 0 :=
  ⟨rfl, rfl, rfl, rfl⟩

/-- The `while tot < n` loop of `readi` (`fs.rs` lines 462-480),
collecting the bytes copied to `dst`.  Each iteration reads
`m = min(n - tot, BLK_SIZE - off % BLK_SIZE)` bytes of the file content
starting at byte offset `off` (the source resolves `off` through
`block_for` to the block holding that offset and copies from byte
`off % BLK_SIZE` of it — i.e. the `m` bytes at logical offsets
`off..off+m`). -/
def readLoop (content : Nat → Nat) (off tot n : Nat) : List Nat :=
  if h : tot < n then
    ((List.range (min (n - tot) (BLK_SIZE - off % BLK_SIZE))).map fun k => content (off + k))
      ++ readLoop content (off + min (n - tot) (BLK_SIZE - off % BLK_SIZE))
          (tot + min (n - tot) (BLK_SIZE - off % BLK_SIZE)) n
  else []
termination_by n - tot
decreasing_by
  have hblk : 0 < BLK_SIZE - off % BLK_SIZE := by
    have hm : off % BLK_SIZE < BLK_SIZE := Nat.mod_lt _ (by decide)
    omega
  omega

/-- Result of `readi`: `fatal` models `panic!("readi: illegal offset")`,
`devio` the delegation to the device switch table for `Dev` inodes,
`ok cnt bytes` the `Some(n)` return with the bytes copied to `dst`. -/
inductive ReadRes
  | fatal
  | devio
  | ok (cnt : Nat) (bytes : List Nat)
  deriving Repr, DecidableEq

/-- `readi` (`fs.rs` lines 443-483).  `u32` overflow in `off + n < off`
is modelled by the explicit `% U32_MOD`. -/
def readi (typ : InodeType) (size : Nat) (content : Nat → Nat) (off n : Nat) : ReadRes :=
  if typ = InodeType.Dev then
    ReadRes.devio
  else if off > size ∨ (off + n) % U32_MOD < off then
    ReadRes.fatal
  else
    ReadRes.ok (if off + n > size then size - off else n)
      (readLoop content off 0 (if off + n > size then size - off else n))

lemma readLoop_length (content : Nat → Nat) (fuel : Nat) :
    ∀ off tot n, n - tot ≤ fuel → (readLoop content off tot n).length = n - tot := by
  induction fuel with
  | zero =>
    intro off tot n hle
    rw [readLoop, dif_neg (by omega)]
    simp only [List.length_nil]
    omega
  | succ fuel ih =>
    intro off tot n hle
    by_cases hlt : tot < n
    · rw [readLoop, dif_pos hlt]
      have hblk : 0 < BLK_SIZE - off % BLK_SIZE := by
        have hm : off % BLK_SIZE < BLK_SIZE := Nat.mod_lt _ (by decide)
        omega
      rw [List.length_append, List.length_map, List.length_range, ih _ _ _ (by omega)]
      omega
    · rw [readLoop, dif_neg hlt]
      simp only [List.length_nil]
      omega

/-- C9: on a non-device inode, `readi` panics when `off` exceeds the
inode size or when `off + n` wraps around `u32`; with `off` equal to
the size it returns `Some(0)` having copied nothing; with
`off + n` past the end it clamps the count to `size - off` and returns
exactly that many bytes. -/
theorem readi_boundaries (typ : InodeType) (size : Nat) (content : Nat → Nat) (off n : Nat)
    (htyp : typ ≠ InodeType.Dev) (hoff : off < U32_MOD) (hn : n < U32_MOD) :
    (size < off → readi typ size content off n = ReadRes.fatal)
    ∧ (U32_MOD ≤ off + n → readi typ size content off n = ReadRes.fatal)
    ∧ (off = size → off + n < U32_MOD → readi typ size content off n = ReadRes.ok 0 [])
    ∧ (off ≤ size → size < off + n → off + n < U32_MOD →
        ∃ bytes, readi typ size content off n = ReadRes.ok (size - off) bytes
          ∧ bytes.length = size - off) := by
  have h32 : U32_MOD = 4294967296 := rfl
  refine ⟨?_, ?_, ?_, ?_⟩
  · intro hbig
    unfold readi
    rw [if_neg htyp, if_pos (Or.inl hbig)]
  · intro hwrap
    unfold readi
    rw [if_neg htyp, if_pos (Or.inr (by
      rw [h32] at hwrap hoff hn ⊢
      omega))]
  · intro hoffsz hnw
    unfold readi
    rw [if_neg htyp, if_neg (by rw [Nat.mod_eq_of_lt hnw]; omega)]
    have hcl : (if off + n > size then size - off else n) = 0 := by
      split <;> omega
    rw [hcl, readLoop, dif_neg (by omega)]
  · intro hle hpast hnw
    unfold readi
    rw [if_neg htyp, if_neg (by rw [Nat.mod_eq_of_lt hnw]; omega)]
    rw [if_pos (by omega)]
    exact ⟨readLoop content off 0 (size - off), rfl,
      by rw [readLoop_length content (size - off) off 0 (size - off) (by omega)]; omega⟩

def c9content : Nat → Nat := fun a => a % 251

/-- Witness for C9 on a file inode of size 5. -/
theorem readi_boundaries_witness :
    (InodeType.File ≠ InodeType.Dev ∧ (3:Nat) < U32_MOD ∧ (4:Nat) < U32_MOD)
    ∧ (((5:Nat) < 3 → readi InodeType.File 5 c9content 3 4 = ReadRes.fatal)
       ∧ (U32_MOD ≤ 3 + 4 → readi InodeType.File 5 c9content 3 4 = ReadRes.fatal)
       ∧ ((3:Nat) = 5 → 3 + 4 < U32_MOD → readi InodeType.File 5 c9content 3 4 = ReadRes.ok 0 [])
       ∧ ((3:Nat) ≤ 5 → (5:Nat) < 3 + 4 → 3 + 4 < U32_MOD →
           ∃ bytes, readi InodeType.File 5 c9content 3 4 = ReadRes.ok (5 - 3) bytes
             ∧ bytes.length = 5 - 3)) :=
  ⟨⟨by decide, by decide, by decide⟩,
   readi_boundaries InodeType.File 5 c9content 3 4 (by decide) (by decide) (by decide)⟩

/-! ## Directories (`src/fs.rs`)

A directory's byte stream is a flat array of 16-byte `DirEnt` records
(`dir.size = 16 * number of records`), modelled as a list.  The
fixed-length NUL-padded 12-byte name array is abstracted to a single
value; equality of these values is what
`strncmp(name, ent.name, DIR_SIZ) == 0` computes on the stored
arrays. -/

structure DirEntM where
  inum : Nat
  name : Nat
  deriving Repr, DecidableEq

/-- The scan of `dir_lookup` (`fs.rs` lines 679-723) specialised to the
name condition of `dir_lookup_with_name`: an entry matches when its
`inum` is nonzero and its name equals the probe (slots with `inum = 0`
are skipped before the condition is applied).  `dir_link` only uses
whether a match exists. -/
def dir_lookup_present (entries : List DirEntM) (name : Nat) : Bool :=
  entries.any fun e => e.inum != 0 && e.name == name

/-- The free-slot scan of `dir_link` (`fs.rs` lines 763-772): walk the
records from offset 0 and stop at the first one with `inum == 0`; the
result is that record's index (`off / 16`), or `none` when the loop
runs past the end of the directory (`off = dir.size`). -/
def findFreeIdx : List DirEntM → Option Nat
  | [] => none
  | e :: rest => if e.inum == 0 then some 0 else (findFreeIdx rest).map (· + 1)

/-- `dir_link` (`fs.rs` lines 752-782) over the records its scans
observe: `dir_lookup_with_name` and the free-slot loop re-read the
records through `readi` on every iteration, so `entries` is the record
array as the buffer cache and disk serve it.  The result's second
component records where the final `writei` aims its 16 bytes: a found
free slot means `off = 16·i < dir.size` (that record overwritten in
place, size unchanged), no free slot means `off = dir.size` (one record
appended, the in-memory `dir.size` grown by 16).  Whether the stored
bytes become readable or durable is a separate question — they do not,
because the written buffer is dropped at release (see the C7
theorem). -/
def dir_link (entries : List DirEntM) (name inum : Nat) : Bool × List DirEntM :=
  if dir_lookup_present entries name then
    (false, entries)
  else
    match findFreeIdx entries with
    | some i => (true, entries.set i ⟨inum, name⟩)
    | none => (true, entries ++ [⟨inum, name⟩])

/-! ## Block allocator over cache and disk state (`src/fs.rs`, `src/buf.rs`, `src/ide.rs`)

`FsSt` is the state `balloc`/`bzero` operate on: the buffer cache slot
array, the disk (bytes of every `(dev, blockno)` block) and the log
bookkeeping.  A `BufCacheHandler` returned by `get` points at the slot
matching its `(dev, blockno)`, so handler operations (`read`, raw data
writes, `make_dirty`) act on the first matching slot. -/

structure FsSt where
  cache : List (Option Buf)
  disk : Nat → Nat → List Nat
  log : LogSt

/-- The slot a `BufCacheHandler` for `(dev, blockno)` points at: the
first matching slot of the array. -/
def cacheFind : List (Option Buf) → Nat → Nat → Option Buf
  | [], _, _ => none
  | some b :: rest, dev, blockno =>
    if b.dev == dev && b.blockno == blockno then some b else cacheFind rest dev blockno
  | none :: rest, dev, blockno => cacheFind rest dev blockno

/-- Apply `f` to the slot a handler for `(dev, blockno)` points at. -/
def cacheUpdate : List (Option Buf) → Nat → Nat → (Buf → Buf) → List (Option Buf)
  | [], _, _, _ => []
  | some b :: rest, dev, blockno, f =>
    if b.dev == dev && b.blockno == blockno then some (f b) :: rest
    else some b :: cacheUpdate rest dev blockno f
  | none :: rest, dev, blockno, f => none :: cacheUpdate rest dev blockno f

/-- `u32` mask for `flags &= !B_DIRTY`. -/
def NOT_DIRTY_MASK : Nat := U32_MOD - 1 - BUF_FLAGS_DIRTY

/-- `BufCache::get` at the state level. -/
def stGet (s : FsSt) (dev blockno : Nat) : Option FsSt :=
  (BufCache.get s.cache dev blockno).map fun c => { s with cache := c }

/-- `BufCache::release` at the state level. -/
def stRelease (s : FsSt) (dev blockno : Nat) : Option FsSt :=
  (BufCache.release s.cache dev blockno).map fun c => { s with cache := c }

/-- `handler.read()` (`buf.rs` lines 47-52) with the `ide_rw` contract
(`ide.rs` lines 261-285, completion in `ide_intr` lines 224-245): a
no-op when the buffer is VALID; otherwise a dirty buffer is written to
disk, a clean one is filled from disk; on completion VALID is set and
DIRTY cleared. -/
def bufRead (s : FsSt) (dev blockno : Nat) : Option FsSt :=
  match cacheFind s.cache dev blockno with
  | none => none
  | some b =>
    if b.flags &&& BUF_FLAGS_VALID == 0 then
      if b.flags &&& BUF_FLAGS_DIRTY == 0 then
        some { s with
          cache := cacheUpdate s.cache dev blockno fun b0 =>
            { b0 with data := s.disk dev blockno, flags := b0.flags ||| BUF_FLAGS_VALID } }
      else
        some { s with
          cache := cacheUpdate s.cache dev blockno fun b0 =>
            { b0 with flags := (b0.flags ||| BUF_FLAGS_VALID) &&& NOT_DIRTY_MASK },
          disk := fun d bn => if d = dev ∧ bn = blockno then b.data else s.disk d bn }
    else some s

/-- `log_write(&mut bp)` at the state level (`log.rs` lines 263-295):
the header bookkeeping on `LOG` followed by `buf.make_dirty()` on the
handler's slot. -/
def stLogWrite (s : FsSt) (dev blockno : Nat) : Option FsSt :=
  (log_write s.log blockno).map fun lg =>
    { s with
      log := lg,
      cache := cacheUpdate s.cache dev blockno fun b =>
        { b with flags := b.flags ||| BUF_FLAGS_DIRTY } }

/-- `bzero` (`fs.rs` lines 595-599): `get` the buffer (with no `read`),
`memset` its in-memory bytes to zero, `release` it.  No `write`, no
`log_write`, no dirty flag. -/
def bzero (dev blockno : Nat) (s : FsSt) : Option FsSt :=
  match stGet s dev blockno with
  | none => none
  | some s1 =>
    stRelease
      { s1 with
        cache := cacheUpdate s1.cache dev blockno fun b =>
          { b with data := List.replicate BLK_SIZE 0 } }
      dev blockno

/-- `bread` as every consumer performs it: `get` then `handler.read()`. -/
def bread (dev blockno : Nat) (s : FsSt) : Option FsSt :=
  match stGet s dev blockno with
  | none => none
  | some s1 => bufRead s1 dev blockno

/-- The inner bit scan of `balloc` (`fs.rs` lines 573-586): from bit
`bi`, while `bi < BPB && blockno + bi < size`, return the first bit
whose bitmap byte has it clear.  `fuel` bounds the remaining
iterations for structural recursion; any `fuel ≥ BPB - bi` runs the
loop in full (the loop increments `bi` up to the `bi < BPB` bound). -/
def ballocScan (data : List Nat) (size blockno : Nat) : Nat → Nat → Option Nat
  | _, 0 => none
  | bi, fuel + 1 =>
    if bi < BPB ∧ blockno + bi < size then
      if (data.getD (bi / 8) 0) &&& (1 <<< (bi % 8)) == 0 then some bi
      else ballocScan data size blockno (bi + 1) fuel
    else none

/-- `bp.data_mut()[bi / 8] |= m` on a block's bytes. -/
def setBitByte (data : List Nat) (bi : Nat) : List Nat :=
  data.set (bi / 8) ((data.getD (bi / 8) 0) ||| (1 <<< (bi % 8)))

/-- The outer loop of `balloc` (`fs.rs` lines 566-592), from iteration
`blockno`: get and read the bitmap block covering `blockno`, scan its
bits; on a free bit, set it in the buffer, `log_write` the bitmap
buffer, release it, `bzero` the corresponding data block and return its
number `blockno + bi`; otherwise release and continue with
`blockno + 1`; running past `sb.size` is `panic!("balloc: out of
blocks")`. -/
def ballocLoop (dev size bmapStart : Nat) : Nat → Nat → FsSt → Option (FsSt × Nat)
  | _, 0, _ => none
  | blockno, fuel + 1, s =>
    if blockno < size then
      match stGet s dev (blockno / BPB + bmapStart) with
      | none => none
      | some s1 =>
        match bufRead s1 dev (blockno / BPB + bmapStart) with
        | none => none
        | some s2 =>
          match cacheFind s2.cache dev (blockno / BPB + bmapStart) with
          | none => none
          | some bp =>
            match ballocScan bp.data size blockno 0 BPB with
            | some bi =>
              match stLogWrite
                  { s2 with
                    cache := cacheUpdate s2.cache dev (blockno / BPB + bmapStart) fun b =>
                      { b with data := setBitByte b.data bi } }
                  dev (blockno / BPB + bmapStart) with
              | none => none
              | some s4 =>
                match stRelease s4 dev (blockno / BPB + bmapStart) with
                | none => none
                | some s5 => (bzero dev (blockno + bi) s5).map fun s6 => (s6, blockno + bi)
            | none =>
              match stRelease s2 dev (blockno / BPB + bmapStart) with
              | none => none
              | some s2a => ballocLoop dev size bmapStart (blockno + 1) fuel s2a
    else none

/-- `balloc(dev)` (`fs.rs` lines 566-592) given the superblock fields
it reads (`sb.size`, `sb.bmap_start`).  The outer `for blockno in
0..sb.size` runs at most `size` iterations, so fuel `size` runs it in
full. -/
def balloc (dev size bmapStart : Nat) (s : FsSt) : Option (FsSt × Nat) :=
  ballocLoop dev size bmapStart 0 size s

def c5disk : Nat → Nat → List Nat := fun d bn =>
  if d = 1 ∧ bn = 3 then 63 :: List.replicate 511 0
  else if d = 1 ∧ bn = 6 then List.replicate 512 7
  else List.replicate 512 0

def c5st : FsSt :=
  { cache := [none, none], disk := c5disk, log := ⟨0, List.replicate 30 0, 1, 30⟩ }

set_option maxRecDepth 40000 in
/-- C5: the claim fails on the code.  On a device whose bitmap block
(block 3) has bits 0-5 set, `balloc` does return the block of the first
zero bit (block 6) with the bitmap write recorded in the log header,
but the allocated block is not durably zeroed: `bzero` only memsets an
in-memory buffer that it neither marks dirty nor writes nor logs, and
its `release` immediately drops that buffer, so the disk still holds
block 6's stale bytes (7s) and a subsequent `bread` of block 6 observes
those stale bytes instead of zeroes. -/
theorem balloc_zeroing_lost :
    (balloc 1 8 3 c5st).map (·.2) = some 6
    ∧ (balloc 1 8 3 c5st).map (fun p => p.1.log.n) = some 1
    ∧ (balloc 1 8 3 c5st).map (fun p => p.1.log.block.take 1) = some [3]
    ∧ (balloc 1 8 3 c5st).map (fun p => p.1.disk 1 6) = some (List.replicate 512 7)
    ∧ (((balloc 1 8 3 c5st).map (·.1)).bind (bread 1 6)).bind
        (fun s2 => (cacheFind s2.cache 1 6).map (·.data)) = some (List.replicate 512 7) := by
  refine ⟨by decide, by decide, by decide, by decide, by decide⟩

/-! ## Logged writes and commit-time copying over cache and disk state

Every FS mutation in this repository uses the idiom documented at
`log.rs` lines 258-262: `bp = bread(...); modify bp->data[];
log_write(bp); brelse(bp)` — so does `writei`'s copy loop (`fs.rs`
lines 506-520), `iupdate` (`fs.rs` lines 293-313) and `unlink`'s
directory-entry zeroing (`sysfile.rs` line 142).  Commit later moves
blocks with `write_log` and `install_trans`.  These are modelled here
over `FsSt` to follow what actually reaches the disk. -/

/-- `handler.write()` (`buf.rs` lines 54-58): `make_dirty` then
`ide_rw`; with DIRTY set, `ide_rw` writes the buffer's bytes to disk
and the completion handler (`ide_intr`, `ide.rs` lines 236-245) sets
VALID and clears DIRTY. -/
def bufWrite (s : FsSt) (dev blockno : Nat) : Option FsSt :=
  match cacheFind s.cache dev blockno with
  | none => none
  | some b =>
    some { s with
      disk := fun d bn => if d = dev ∧ bn = blockno then b.data else s.disk d bn,
      cache := cacheUpdate s.cache dev blockno fun b0 =>
        { b0 with flags := (b0.flags ||| BUF_FLAGS_VALID) &&& NOT_DIRTY_MASK } }

/-- One iteration of `write_log` (`log.rs` lines 166-182) — and, with
`toBn`/`fromBn` swapped, of `install_trans` (`log.rs` lines 228-244):
get and read the destination block, get and read the source block,
`memmove` the source buffer's bytes over the destination buffer, write
the destination buffer to disk, release both buffers. -/
def copyBlockSt (dev toBn fromBn : Nat) (s : FsSt) : Option FsSt :=
  (stGet s dev toBn).bind fun s1 =>
  (bufRead s1 dev toBn).bind fun s2 =>
  (stGet s2 dev fromBn).bind fun s3 =>
  (bufRead s3 dev fromBn).bind fun s4 =>
  match cacheFind s4.cache dev fromBn with
  | none => none
  | some bf =>
    (bufWrite
        { s4 with cache := cacheUpdate s4.cache dev toBn fun b => { b with data := bf.data } }
        dev toBn).bind fun s5 =>
    (stRelease s5 dev fromBn).bind fun s6 =>
    stRelease s6 dev toBn

/-- The logged-write idiom (`log.rs` lines 258-262): get and read the
block, overwrite its bytes in the buffer, `log_write` it (header
bookkeeping plus the dirty pin), release it.  `newdata` is the buffer's
byte content after the caller's modification. -/
def loggedWriteSt (dev blockno : Nat) (newdata : List Nat) (s : FsSt) : Option FsSt :=
  (stGet s dev blockno).bind fun s1 =>
  (bufRead s1 dev blockno).bind fun s2 =>
  (stLogWrite
      { s2 with cache := cacheUpdate s2.cache dev blockno fun b => { b with data := newdata } }
      dev blockno).bind fun s3 =>
  stRelease s3 dev blockno

def c1st : FsSt :=
  { cache := [none, none],
    disk := fun d bn => if d = 1 ∧ bn = 10 then List.replicate 512 7 else List.replicate 512 0,
    log := ⟨0, List.replicate 30 0, 1, 30⟩ }

set_option maxRecDepth 40000 in
/-- C1: the claim fails on the code.  A transaction that logged a write
of bytes 9...9 to home block 10 (by the bread/modify/log_write/brelse
idiom; log start 2, log data slot 3) has its pinned dirty buffer
dropped by `release` at refcount zero, so at commit time `write_log`'s
`buf_from.read()` (`log.rs` lines 169-170) re-reads the stale bytes
7...7 from disk and the log slot receives those stale bytes, never the
transaction's final values.  The header write that follows (the commit
point) moves no data blocks, and `install_trans` — the replay that
recovery runs after a crash immediately past the commit point — copies
the log slot back home, leaving block 10 with its old bytes 7...7
rather than the transaction's 9...9.  (Independently, `begin_op` never
returns — see C2 — so no transaction even reaches the commit point.) -/
theorem commit_installs_stale_values :
    ((loggedWriteSt 1 10 (List.replicate 512 9) c1st).bind (copyBlockSt 1 3 10)).map
        (fun s => s.disk 1 3) = some (List.replicate 512 7)
    ∧ (((loggedWriteSt 1 10 (List.replicate 512 9) c1st).bind (copyBlockSt 1 3 10)).bind
        (copyBlockSt 1 10 3)).map (fun s => s.disk 1 10) = some (List.replicate 512 7)
    ∧ (List.replicate 512 9 : List Nat) ≠ List.replicate 512 7 := by
  refine ⟨by decide, by decide, by decide⟩

def c6st : FsSt :=
  { cache := [none, none],
    disk := fun d bn => if d = 1 ∧ bn = 4 then List.replicate 512 7 else List.replicate 512 0,
    log := ⟨0, List.replicate 30 0, 1, 30⟩ }

set_option maxRecDepth 40000 in
/-- C6: the claim's final clause fails on the code.  `iupdate` (`fs.rs`
lines 290-314) flushes the inode's fields by the
bread/modify/log_write/brelse idiom on the inode's block (here block 4;
old record bytes 7...7, updated record bytes 9...9): the updated record
exists only in the cache buffer, which `release` drops at refcount zero
on the next line (`fs.rs` lines 311-313), and the disk block is never
written.  Reloading the inode from disk (`ilock`'s bread of the same
block) therefore observes the old record — the new size written by
`writei` past the old end is not observable after update/reload. -/
theorem iupdate_flush_lost :
    (loggedWriteSt 1 4 (List.replicate 512 9) c6st).map (fun s => s.disk 1 4)
      = some (List.replicate 512 7)
    ∧ ((loggedWriteSt 1 4 (List.replicate 512 9) c6st).bind (bread 1 4)).bind
        (fun s => (cacheFind s.cache 1 4).map (·.data)) = some (List.replicate 512 7)
    ∧ (List.replicate 512 9 : List Nat) ≠ List.replicate 512 7 := by
  refine ⟨by decide, by decide, by decide⟩

def c7entries : List DirEntM := [⟨7, 1⟩, ⟨8, 2⟩]

def c7dirBytes : List Nat := List.replicate 32 5 ++ List.replicate 480 0

def c7delBytes : List Nat := List.replicate 16 0 ++ (List.replicate 16 5 ++ List.replicate 480 0)

def c7st : FsSt :=
  { cache := [none, none],
    disk := fun d bn => if d = 1 ∧ bn = 5 then c7dirBytes else List.replicate 512 0,
    log := ⟨0, List.replicate 30 0, 1, 30⟩ }

set_option maxRecDepth 40000 in
/-- C7: the slot-reuse half of the claim fails on the code.  `unlink`
deletes an entry by a `writei` of `DirEnt::empty()` (`sysfile.rs` line
142), i.e. the bread/modify/log_write/brelse idiom zeroing the entry's
16 bytes inside the directory's data block (block 5, two live records);
`release` drops that buffer at refcount zero, the disk keeps the old
record, and so does every subsequent `bread`.  A following `dir_link`
of a fresh name therefore scans the directory's records as they still
stand — both entries live (`inum` 7 and 8) — finds no free slot,
appends at `off = dir.size`, and grows the directory by one 16-byte
record instead of reusing the freed slot with the byte size
unchanged. -/
theorem dir_link_reuse_lost :
    (loggedWriteSt 1 5 c7delBytes c7st).map (fun s => s.disk 1 5) = some c7dirBytes
    ∧ ((loggedWriteSt 1 5 c7delBytes c7st).bind (bread 1 5)).bind
        (fun s => (cacheFind s.cache 1 5).map (·.data)) = some c7dirBytes
    ∧ c7delBytes ≠ c7dirBytes
    ∧ dir_lookup_present c7entries 3 = false
    ∧ findFreeIdx c7entries = none
    ∧ dir_link c7entries 3 9 = (true, c7entries ++ [⟨9, 3⟩])
    ∧ ((dir_link c7entries 3 9).2).length = c7entries.length + 1 := by
  refine ⟨by decide, by decide, by decide, by decide, by decide, by decide, by decide⟩

end XvFs
